import Mathlib

/-!
# Verification of the real-time audio safety system

Shallow embedding of the streaming audio safety-processing engine of
`safe_audio_system.py` (class `SafeAudioProcessor`) and of the safety
limiter of `simple_pc_to_headphone.py` (class `SimpleAudioProcessor`).

Modelling conventions:
* audio samples live in `ℝ` (idealising the float arithmetic of the source);
* a dB level is a `WithBot ℝ`, with `⊥` encoding numpy's `-inf`
  (returned by `calculate_db_level` for silent or empty chunks);
* numpy arrays are `List ℝ` / `List ℂ`; `np.fft.fft` is the textbook DFT
  that `numpy` documents; `scipy.signal.filtfilt`'s numeric kernel is kept
  as an explicit function parameter, while its documented input-length
  requirement (`ValueError` unless the input is longer than the default
  `padlen = 3 * max(len(a), len(b)) = 15` for the 4th-order Butterworth
  design used by `low_pass_filter`) is modelled in the `Except` result;
* fallible code returns `Except String`, mirroring Python exceptions;
* the mutable attributes of `SafeAudioProcessor` that the per-chunk
  pipeline reads or writes are collected in the state record `ProcState`.
-/

noncomputable section

namespace SafeAudio

/-- `self.RATE = 44100` in `SafeAudioProcessor.__init__`. -/
def RATE : ℕ := 44100

/-- `self.CHUNK = 1024` in `SafeAudioProcessor.__init__`. -/
def CHUNK : ℕ := 1024

/-- `self.MAX_DB = 70.0`, the safety ceiling. -/
def MAX_DB : ℝ := 70

/-- `self.noise_reduction_factor = 0.7` in `SafeAudioProcessor.__init__`. -/
def noise_reduction_factor : ℝ := 0.7

/-- The learning-window sample count: `int(self.RATE * self.noise_learning_duration)`
with `noise_learning_duration = 3.0`, i.e. `int(44100 * 3.0) = 132300`.  The same
value is the `maxlen` of the `noise_buffer` deque. -/
def noiseCap : ℕ := RATE * 3

/-- Sum of squared samples: `np.sum(audio_data ** 2)` (numerator of `np.mean`). -/
def sumSq (x : List ℝ) : ℝ := (x.map fun s => s ^ 2).sum

/-- `np.sqrt(np.mean(audio_data ** 2))`, the RMS of a chunk.
For the empty list Lean's `0 / 0 = 0` convention gives RMS `0`, which leads the
callers below to the same `-inf` dB outcome as the source. -/
def rmsOf (x : List ℝ) : ℝ := Real.sqrt (sumSq x / x.length)

/-- `SafeAudioProcessor.calculate_db_level`: for an empty chunk returns `-inf`;
otherwise computes RMS and, when positive, `20*log10(rms) + 94`
(the 94 dB calibration offset); for zero RMS returns `-inf`. -/
def calculate_db_level (audio_data : List ℝ) : WithBot ℝ :=
  if audio_data = [] then ⊥
  else if 0 < rmsOf audio_data then
    ((20 * Real.logb 10 (rmsOf audio_data) + 94 : ℝ) : WithBot ℝ)
  else ⊥

/-- `SafeAudioProcessor.adaptive_volume_control`: measures the dB level of the
chunk; if it exceeds `MAX_DB`, scales the chunk by
`10 ** (-(current_db - MAX_DB) / 20)` and applies the soft knee
`np.tanh(x * 0.8) * 0.8`; otherwise passes the chunk through unchanged.
Returns the (possibly reshaped) chunk together with `current_db`, the level
that was measured on the *input* chunk.  In the over-ceiling branch the level
is finite, so `WithBot.unbot' 0` recovers exactly the measured real value. -/
def adaptive_volume_control (audio_data : List ℝ) : List ℝ × WithBot ℝ :=
  let current_db := calculate_db_level audio_data
  if (MAX_DB : WithBot ℝ) < current_db then
    (audio_data.map fun s =>
      Real.tanh (s * (10 : ℝ) ^ (-(current_db.unbot' 0 - MAX_DB) / 20) * 0.8) * 0.8,
     current_db)
  else (audio_data, current_db)

/-- `np.fft.fft`: the discrete Fourier transform with numpy's sign convention,
`X_k = Σ_j x_j · exp(-2πi·j·k/n)`. -/
def fft (x : List ℂ) : List ℂ :=
  (List.range x.length).map fun k : ℕ =>
    ∑ j in Finset.range x.length,
      x.getD j 0 * Complex.exp (-(2 * (Real.pi : ℂ) * j * k / x.length) * Complex.I)

/-- `np.fft.ifft`: the inverse DFT, `x_j = (Σ_k X_k · exp(2πi·j·k/n)) / n`. -/
def ifft (x : List ℂ) : List ℂ :=
  (List.range x.length).map fun j : ℕ =>
    (∑ k in Finset.range x.length,
      x.getD k 0 * Complex.exp ((2 * (Real.pi : ℂ) * j * k / x.length) * Complex.I)) / x.length

/-- `np.hanning(M)`: the Hann window `0.5 - 0.5*cos(2πn/(M-1))` for `n < M`,
with numpy's special cases `np.hanning(1) = [1.]` and `np.hanning(0) = []`. -/
def hanning (M : ℕ) : List ℝ :=
  if M = 1 then [1]
  else (List.range M).map fun n : ℕ => 0.5 - 0.5 * Real.cos (2 * Real.pi * n / (M - 1))

/-- `audio_data * np.hanning(len(audio_data))`, the Hann-windowed chunk. -/
def hannWindowed (x : List ℝ) : List ℝ := List.zipWith (· * ·) x (hanning x.length)

/-- `SafeAudioProcessor.spectral_subtraction` with the reduction factor made an
explicit argument (`self.noise_reduction_factor` at the in-source call site):
returns the chunk unchanged when the profile is `None` or the chunk is shorter
than 64 samples; otherwise Hann-windows the chunk, takes magnitude and phase of
its FFT, forms `np.maximum(spectrum - alpha*noise, 0.1*spectrum)` and
reconstructs the real part of the inverse FFT.  The numpy broadcast in the
subtraction presupposes equally long spectrum and profile, which every
in-source call guarantees. -/
def spectral_subtraction (alpha : ℝ) (audio_data : List ℝ)
    (noise_spectrum : Option (List ℝ)) : List ℝ :=
  match noise_spectrum with
  | none => audio_data
  | some noise =>
    if audio_data.length < 64 then audio_data
    else
      let audio_fft := fft ((hannWindowed audio_data).map Complex.ofReal)
      let audio_spectrum := audio_fft.map Complex.abs
      let audio_phase := audio_fft.map Complex.arg
      let enhanced_spectrum :=
        List.zipWith max (List.zipWith (fun m p => m - alpha * p) audio_spectrum noise)
          (audio_spectrum.map fun m => 0.1 * m)
      let enhanced_fft :=
        List.zipWith (fun m p : ℝ => Complex.ofReal m * Complex.exp (Complex.ofReal p * Complex.I))
          enhanced_spectrum audio_phase
      (ifft enhanced_fft).map Complex.re

/-- The `ValueError` text scipy's `filtfilt` raises for too-short input. -/
def padlenMsg : String := "ValueError: the length of the input vector x must be greater than padlen, which is 15"

/-- The `TypeError` Python raises when `len(None)` is evaluated. -/
def typeErrMsg : String := "TypeError: object of type NoneType has no len()"

/-- `SafeAudioProcessor.low_pass_filter`: designs a 4th-order Butterworth
low-pass (`scipy.signal.butter(4, 8000/(RATE/2))`) and applies
`scipy.signal.filtfilt`.  `filtfilt` with its default
`padlen = 3 * max(len(a), len(b)) = 15` raises `ValueError` unless the input
is strictly longer than 15 samples; the numeric zero-phase kernel itself is
abstracted as the parameter `filtfiltKernel`. -/
def low_pass_filter (filtfiltKernel : List ℝ → List ℝ) (audio_data : List ℝ) :
    Except String (List ℝ) :=
  if audio_data.length ≤ 15 then Except.error padlenMsg
  else Except.ok (filtfiltKernel audio_data)

/-- `audio_data.astype(np.float32) / 32768.0`: int16 samples to floats. -/
def floatChunk (c : List ℤ) : List ℝ := c.map fun v : ℤ => (v : ℝ) / 32768

/-- numpy `astype` to an integer dtype truncates toward zero. -/
def truncToInt (r : ℝ) : ℤ := if 0 ≤ r then ⌊r⌋ else ⌈r⌉

/-- `np.clip(audio_float * 32768.0, -32768, 32767).astype(np.int16)`:
scale back to the int16 domain, clamp, and truncate. -/
def toInt16 (x : List ℝ) : List ℤ :=
  x.map fun s : ℝ => truncToInt (max (-32768) (min 32767 (s * 32768)))

/-- The mutable attributes of `SafeAudioProcessor` that `process_audio_chunk`
reads or writes. -/
structure ProcState where
  noise_profile : Option (List ℝ)
  noise_buffer : List ℝ
  learning_noise : Bool
  noise_learned : Bool
  processing_enabled : Bool
  current_db : WithBot ℝ
  max_db_recorded : WithBot ℝ
  processed_db : WithBot ℝ

/-- The state set up by `SafeAudioProcessor.__init__`: no profile, empty noise
buffer, learning phase on, processing enabled, statistics at `0`.
(`processed_db` is first materialised on demand in the source; its initial
value is irrelevant to every property proved below.) -/
def initState : ProcState :=
  { noise_profile := none
    noise_buffer := []
    learning_noise := true
    noise_learned := false
    processing_enabled := true
    current_db := ((0 : ℝ) : WithBot ℝ)
    max_db_recorded := ((0 : ℝ) : WithBot ℝ)
    processed_db := ((0 : ℝ) : WithBot ℝ) }

/-- `collections.deque(maxlen := n)` keeps the `n` most recently appended
elements; after `extend`, the buffer is the last `n` elements of the
concatenation (the `n` first elements of the reversal, reversed). -/
def takeLast (n : ℕ) (l : List ℝ) : List ℝ := (l.reverse.take n).reverse

/-- The `if self.learning_noise:` block of `process_audio_chunk`: extend the
capped noise deque with the float chunk; once the buffer has reached the
learning-window size, compute the magnitude spectrum of the Hann-windowed
buffer as the noise profile and flip the phase flags; in both cases the
original int16 chunk is returned unmodified. -/
def learningStep (s1 : ProcState) (audio_float : List ℝ) (audio_data : List ℤ) :
    ProcState × Except String (List ℤ) :=
  let buf := takeLast noiseCap (s1.noise_buffer ++ audio_float)
  if noiseCap ≤ buf.length then
    ({ s1 with noise_buffer := buf
               noise_profile :=
                 some ((fft ((hannWindowed buf).map Complex.ofReal)).map Complex.abs)
               learning_noise := false
               noise_learned := true }, Except.ok audio_data)
  else ({ s1 with noise_buffer := buf }, Except.ok audio_data)

/-- The `if self.noise_learned and len(audio_float) > 0:` block of
`process_audio_chunk`: spectral subtraction only when the chunk length equals
the profile length, then the low-pass filter (whose `ValueError` propagates),
then `adaptive_volume_control` (storing its returned level in
`processed_db`), and finally the clipped int16 conversion.  A `None` profile
would make Python's `len(self.noise_profile)` raise `TypeError`. -/
def activeStep (fc : List ℝ → List ℝ) (s1 : ProcState) (audio_float : List ℝ) :
    ProcState × Except String (List ℤ) :=
  match s1.noise_profile with
  | none => (s1, Except.error typeErrMsg)
  | some prof =>
    let af1 := if audio_float.length = prof.length
      then spectral_subtraction noise_reduction_factor audio_float (some prof)
      else audio_float
    match low_pass_filter fc af1 with
    | Except.error e => (s1, Except.error e)
    | Except.ok af2 =>
      let res := adaptive_volume_control af2
      ({ s1 with processed_db := res.2 }, Except.ok (toInt16 res.1))

/-- `SafeAudioProcessor.process_audio_chunk`, as a function from the current
state and the raw int16 chunk to the successor state and the returned chunk
(`Except.error` marks a propagated Python exception; state mutations performed
before the raising call persist, exactly as in Python).  Control flow follows
the source line by line: convert to float, measure and record the input level,
then branch on `learning_noise` (see `learningStep`), `processing_enabled`,
and `noise_learned and len(audio_float) > 0` (see `activeStep`); otherwise
only the clipped int16 conversion runs. -/
def processChunk (fc : List ℝ → List ℝ) (s : ProcState) (audio_data : List ℤ) :
    ProcState × Except String (List ℤ) :=
  let audio_float := floatChunk audio_data
  let input_db := calculate_db_level audio_float
  let s1 : ProcState :=
    { s with current_db := input_db, max_db_recorded := max s.max_db_recorded input_db }
  if s1.learning_noise then learningStep s1 audio_float audio_data
  else if s1.processing_enabled = false then (s1, Except.ok audio_data)
  else if s1.noise_learned = true ∧ 0 < audio_float.length then
    activeStep fc s1 audio_float
  else (s1, Except.ok (toInt16 audio_float))

/-- A whole session: fold `process_audio_chunk` over a stream of chunks,
starting from the `__init__` state. -/
def run (fc : List ℝ → List ℝ) (cs : List (List ℤ)) : ProcState :=
  cs.foldl (fun s c => (processChunk fc s c).1) initState

/-- Total number of samples in a stream of chunks. -/
def totalLen (cs : List (List ℤ)) : ℕ := (cs.map List.length).sum

/-- `SimpleAudioProcessor.apply_safety_limiting` (simple_pc_to_headphone.py):
measures `20*log10(rms) + 94` (or `-inf` for zero RMS), and when the level
exceeds `MAX_DB` (and is finite) scales the chunk by
`10 ** (-(db_level - MAX_DB) / 20.0)`; otherwise returns a copy. -/
def apply_safety_limiting (audio_data : List ℝ) : List ℝ × WithBot ℝ :=
  let db_level : WithBot ℝ :=
    if 0 < rmsOf audio_data then
      ((20 * Real.logb 10 (rmsOf audio_data) + 94 : ℝ) : WithBot ℝ)
    else ⊥
  if (MAX_DB : WithBot ℝ) < db_level ∧ db_level ≠ ⊥ then
    (audio_data.map fun s : ℝ => s * (10 : ℝ) ^ (-(db_level.unbot' 0 - MAX_DB) / 20), db_level)
  else (audio_data, db_level)

/-- One iteration of `SimpleAudioProcessor.audio_processing_loop` restricted to
its data path: int16 input to floats, `apply_safety_limiting`, then
`(processed_audio * 32767).astype(np.int16)` (no clamp in this file). -/
def simpleOut (c : List ℤ) : List ℤ :=
  ((apply_safety_limiting (floatChunk c)).1).map fun s : ℝ => truncToInt (s * 32767)

/-- A representative post-learning (Active) state: profile and buffer of the
learning-window length, learning finished, processing enabled. -/
def sA : ProcState :=
  { noise_profile := some (List.replicate noiseCap 0)
    noise_buffer := List.replicate noiseCap 0
    learning_noise := false
    noise_learned := true
    processing_enabled := true
    current_db := ((0 : ℝ) : WithBot ℝ)
    max_db_recorded := ((0 : ℝ) : WithBot ℝ)
    processed_db := ((0 : ℝ) : WithBot ℝ) }

/-- The invariant tying a session state to the total number of samples fed so
far: the noise buffer holds the last `noiseCap` samples, the learning flag is
on exactly while fewer than `noiseCap` samples have arrived, `noise_learned`
is its negation, the profile exists exactly once learning has finished and
then always has the learning-window length, and processing stays enabled
(no code path of `process_audio_chunk` ever toggles it). -/
def StateInv (s : ProcState) (t : ℕ) : Prop :=
  s.noise_buffer.length = min t noiseCap ∧
  (s.learning_noise = true ↔ t < noiseCap) ∧
  (s.noise_learned = true ↔ noiseCap ≤ t) ∧
  (∀ p, s.noise_profile = some p → p.length = noiseCap) ∧
  (s.noise_profile = none ↔ t < noiseCap) ∧
  s.processing_enabled = true

/-! ## Level-meter helper lemmas -/

theorem calculate_db_level_nil : calculate_db_level [] = ⊥ := by
  simp [calculate_db_level]

theorem rmsOf_single_zero : rmsOf [(0 : ℝ)] = 0 := by
  simp [rmsOf, sumSq]

theorem calculate_db_level_single_zero : calculate_db_level [(0 : ℝ)] = ⊥ := by
  simp [calculate_db_level, rmsOf_single_zero]

theorem rmsOf_single_one : rmsOf [(1 : ℝ)] = 1 := by
  simp [rmsOf, sumSq]

theorem calculate_db_level_single_one :
    calculate_db_level [(1 : ℝ)] = ((94 : ℝ) : WithBot ℝ) := by
  simp [calculate_db_level, rmsOf_single_one]

/-! ## Limiter: pass-through branch -/

theorem adaptive_pass_through {x : List ℝ}
    (h : calculate_db_level x ≤ (MAX_DB : WithBot ℝ)) :
    adaptive_volume_control x = (x, calculate_db_level x) := by
  unfold adaptive_volume_control
  rw [if_neg (not_lt.mpr h)]

theorem adaptive_snd (x : List ℝ) :
    (adaptive_volume_control x).2 = calculate_db_level x := by
  unfold adaptive_volume_control
  by_cases h : (MAX_DB : WithBot ℝ) < calculate_db_level x
  · rw [if_pos h]
  · rw [if_neg h]

/-! ## Soft-knee bound: the hyperbolic tangent is 1-Lipschitz through zero -/

theorem sinh_le_mul_cosh {t : ℝ} (ht : 0 ≤ t) : Real.sinh t ≤ t * Real.cosh t := by
  have hder : ∀ u : ℝ,
      HasDerivAt (fun v : ℝ => v * Real.cosh v - Real.sinh v) (u * Real.sinh u) u := by
    intro u
    have h1 : HasDerivAt (fun v : ℝ => v * Real.cosh v)
        (1 * Real.cosh u + u * Real.sinh u) u :=
      (hasDerivAt_id u).mul (Real.hasDerivAt_cosh u)
    have h2 := (h1.sub (Real.hasDerivAt_sinh u))
    have : 1 * Real.cosh u + u * Real.sinh u - Real.cosh u = u * Real.sinh u := by ring
    rwa [this] at h2
  have hmono : Monotone (fun v : ℝ => v * Real.cosh v - Real.sinh v) := by
    apply monotone_of_deriv_nonneg
    · exact fun u => (hder u).differentiableAt
    · intro u
      rw [(hder u).deriv]
      rcases le_total 0 u with hu | hu
      · exact mul_nonneg hu (Real.sinh_nonneg_iff.mpr hu)
      · exact mul_nonneg_of_nonpos_of_nonpos hu (Real.sinh_nonpos_iff.mpr hu)
  have h0 := hmono ht
  simp only [Real.sinh_zero, mul_zero, zero_mul, Real.cosh_zero, sub_zero] at h0
  linarith

theorem tanh_le_self {t : ℝ} (ht : 0 ≤ t) : Real.tanh t ≤ t := by
  rw [Real.tanh_eq_sinh_div_cosh, div_le_iff₀ (Real.cosh_pos t)]
  exact sinh_le_mul_cosh ht

theorem tanh_nonneg {t : ℝ} (ht : 0 ≤ t) : 0 ≤ Real.tanh t := by
  rw [Real.tanh_eq_sinh_div_cosh]
  exact div_nonneg (Real.sinh_nonneg_iff.mpr ht) (Real.cosh_pos t).le

theorem abs_tanh_le_abs (t : ℝ) : |Real.tanh t| ≤ |t| := by
  have key : ∀ u : ℝ, 0 ≤ u → |Real.tanh u| ≤ |u| := by
    intro u hu
    rw [abs_of_nonneg hu, abs_of_nonneg (tanh_nonneg hu)]
    exact tanh_le_self hu
  rcases le_total 0 t with h | h
  · exact key t h
  · have h2 := key (-t) (by linarith)
    rwa [Real.tanh_neg, abs_neg, abs_neg] at h2

/-! ## RMS estimates -/

theorem sumSq_nonneg (x : List ℝ) : 0 ≤ sumSq x := by
  apply List.sum_nonneg
  intro a ha
  rcases List.mem_map.mp ha with ⟨s, _, rfl⟩
  exact sq_nonneg s

theorem rmsOf_nonneg (x : List ℝ) : 0 ≤ rmsOf x := Real.sqrt_nonneg _

theorem sumSq_map_le {c : ℝ} {f : ℝ → ℝ} (hf : ∀ s, |f s| ≤ c * |s|)
    (x : List ℝ) : sumSq (x.map f) ≤ c ^ 2 * sumSq x := by
  have h1 : sumSq (x.map f) = (x.map fun s => f s ^ 2).sum := by
    simp [sumSq, List.map_map, Function.comp_def]
  have h2 : c ^ 2 * sumSq x = (x.map fun s => c ^ 2 * s ^ 2).sum := by
    simp [sumSq, List.map_map, Function.comp_def, ← List.sum_map_mul_left]
  rw [h1, h2]
  apply List.sum_le_sum
  intro s _
  have habs : |f s| ^ 2 ≤ (c * |s|) ^ 2 :=
    pow_le_pow_left₀ (abs_nonneg _) (hf s) 2
  calc f s ^ 2 = |f s| ^ 2 := (sq_abs _).symm
    _ ≤ (c * |s|) ^ 2 := habs
    _ = c ^ 2 * s ^ 2 := by rw [mul_pow, sq_abs]

theorem rmsOf_map_le {c : ℝ} (hc : 0 ≤ c) {f : ℝ → ℝ} (hf : ∀ s, |f s| ≤ c * |s|)
    (x : List ℝ) : rmsOf (x.map f) ≤ c * rmsOf x := by
  unfold rmsOf
  rw [List.length_map]
  have hdiv : sumSq (x.map f) / x.length ≤ c ^ 2 * (sumSq x / x.length) := by
    rcases Nat.eq_zero_or_pos x.length with h0 | hpos
    · rw [h0]
      simp
    · have hn : (0 : ℝ) < x.length := by exact_mod_cast hpos
      rw [← mul_div_assoc]
      exact (div_le_div_iff_of_pos_right hn).mpr (sumSq_map_le hf x)
  calc Real.sqrt (sumSq (x.map f) / x.length)
      ≤ Real.sqrt (c ^ 2 * (sumSq x / x.length)) := Real.sqrt_le_sqrt hdiv
    _ = c * Real.sqrt (sumSq x / x.length) := by
        rw [Real.sqrt_mul (sq_nonneg c), Real.sqrt_sq hc]

/-! ## Level characterisations used by the limiter proofs -/

theorem calculate_db_level_pos_elim {x : List ℝ}
    (h : (MAX_DB : WithBot ℝ) < calculate_db_level x) :
    0 < rmsOf x ∧
      calculate_db_level x = ((20 * Real.logb 10 (rmsOf x) + 94 : ℝ) : WithBot ℝ) := by
  unfold calculate_db_level at h ⊢
  by_cases hnil : x = []
  · rw [if_pos hnil] at h
    exact absurd h (not_lt_bot)
  · rw [if_neg hnil] at h ⊢
    by_cases hr : 0 < rmsOf x
    · rw [if_pos hr] at h ⊢
      exact ⟨hr, rfl⟩
    · rw [if_neg hr] at h
      exact absurd h (not_lt_bot)

theorem calculate_db_level_le_of_rms_le {y : List ℝ}
    (h : rmsOf y ≤ (10 : ℝ) ^ ((-6 : ℝ) / 5)) :
    calculate_db_level y ≤ (MAX_DB : WithBot ℝ) := by
  unfold calculate_db_level
  by_cases hnil : y = []
  · rw [if_pos hnil]
    exact bot_le
  · rw [if_neg hnil]
    by_cases hr : 0 < rmsOf y
    · rw [if_pos hr]
      rw [MAX_DB, WithBot.coe_le_coe]
      have hlog : Real.logb 10 (rmsOf y) ≤ (-6 : ℝ) / 5 :=
        (Real.logb_le_iff_le_rpow (by norm_num) hr).mpr h
      linarith
    · rw [if_neg hr]
      exact bot_le

theorem gain_mul_rms {R r : ℝ} (hR : 0 < R) (hr : r = 20 * Real.logb 10 R + 94) :
    (10 : ℝ) ^ (-(r - MAX_DB) / 20) * R = (10 : ℝ) ^ ((-6 : ℝ) / 5) := by
  have hexp : -(r - MAX_DB) / 20 = (-6 : ℝ) / 5 - Real.logb 10 R := by
    rw [hr, MAX_DB]
    ring
  rw [hexp, Real.rpow_sub (by norm_num : (0 : ℝ) < 10),
    Real.rpow_logb (by norm_num) (by norm_num) hR,
    div_mul_cancel₀ _ (ne_of_gt hR)]

/-! ## The limiter enforces the ceiling -/

theorem adaptive_over {x : List ℝ} (h : (MAX_DB : WithBot ℝ) < calculate_db_level x) :
    adaptive_volume_control x =
      (x.map fun s =>
        Real.tanh (s * (10 : ℝ) ^
          (-((calculate_db_level x).unbot' 0 - MAX_DB) / 20) * 0.8) * 0.8,
       calculate_db_level x) := by
  unfold adaptive_volume_control
  rw [if_pos h]

theorem limiter_db_le {x : List ℝ} (h : (MAX_DB : WithBot ℝ) < calculate_db_level x) :
    calculate_db_level ((adaptive_volume_control x).1) ≤ (MAX_DB : WithBot ℝ) := by
  obtain ⟨hrms, hval⟩ := calculate_db_level_pos_elim h
  set R := rmsOf x with hRdef
  set r := 20 * Real.logb 10 R + 94 with hrdef
  have hunbot : (calculate_db_level x).unbot' 0 = r := by
    rw [hval]
    exact WithBot.unbot'_coe _ _
  set g := (10 : ℝ) ^ (-(r - MAX_DB) / 20) with hgdef
  have hg : 0 < g := Real.rpow_pos_of_pos (by norm_num) _
  have hbound : ∀ s : ℝ, |Real.tanh (s * g * 0.8) * 0.8| ≤ 0.64 * g * |s| := by
    intro s
    have h1 : |Real.tanh (s * g * 0.8) * 0.8| = |Real.tanh (s * g * 0.8)| * 0.8 := by
      rw [abs_mul]
      norm_num
    have h2 : |Real.tanh (s * g * 0.8)| ≤ |s * g * 0.8| := abs_tanh_le_abs _
    have h3 : |s * g * 0.8| = 0.8 * g * |s| := by
      rw [abs_mul, abs_mul, abs_of_pos hg, abs_of_nonneg (by norm_num : (0 : ℝ) ≤ (0.8 : ℝ))]
      ring
    rw [h1]
    calc |Real.tanh (s * g * 0.8)| * 0.8 ≤ |s * g * 0.8| * 0.8 := by linarith
      _ = 0.64 * g * |s| := by rw [h3]; ring
  have hrmsout : rmsOf (x.map fun s => Real.tanh (s * g * 0.8) * 0.8) ≤ 0.64 * g * R :=
    rmsOf_map_le (by positivity) hbound x
  have hgR : g * R = (10 : ℝ) ^ ((-6 : ℝ) / 5) := gain_mul_rms hrms hrdef
  have hfinal : rmsOf (x.map fun s => Real.tanh (s * g * 0.8) * 0.8) ≤
      (10 : ℝ) ^ ((-6 : ℝ) / 5) := by
    have h064 : 0.64 * g * R ≤ g * R := by nlinarith [hg, hrms, mul_pos hg hrms]
    calc rmsOf (x.map fun s => Real.tanh (s * g * 0.8) * 0.8)
        ≤ 0.64 * g * R := hrmsout
      _ ≤ g * R := h064
      _ = (10 : ℝ) ^ ((-6 : ℝ) / 5) := hgR
  rw [adaptive_over h]
  simp only [hunbot]
  exact calculate_db_level_le_of_rms_le hfinal

theorem dbLevel_one_gt : (MAX_DB : WithBot ℝ) < calculate_db_level [(1 : ℝ)] := by
  rw [calculate_db_level_single_one, MAX_DB]
  exact WithBot.coe_lt_coe.mpr (by norm_num)

/-! ## Length lemmas -/

theorem floatChunk_length (c : List ℤ) : (floatChunk c).length = c.length := by
  simp [floatChunk]

theorem hanning_length (M : ℕ) : (hanning M).length = M := by
  unfold hanning
  by_cases h : M = 1
  · rw [if_pos h, h]
    rfl
  · rw [if_neg h]
    simp

theorem hannWindowed_length (x : List ℝ) : (hannWindowed x).length = x.length := by
  simp [hannWindowed, hanning_length]

theorem fft_length (x : List ℂ) : (fft x).length = x.length := by
  simp [fft]

theorem ifft_length (x : List ℂ) : (ifft x).length = x.length := by
  simp [ifft]

theorem takeLast_length (n : ℕ) (l : List ℝ) : (takeLast n l).length = min n l.length := by
  simp [takeLast]

theorem spectral_subtraction_length {noise x : List ℝ} (alpha : ℝ)
    (h : noise.length = x.length) :
    (spectral_subtraction alpha x (some noise)).length = x.length := by
  unfold spectral_subtraction
  simp only []
  by_cases h64 : x.length < 64
  · rw [if_pos h64]
  · rw [if_neg h64]
    simp [ifft_length, fft_length, hannWindowed_length, h]

/-! ## State machine: the invariant holds initially and is preserved -/

theorem stateInv_init : StateInv initState 0 := by
  unfold StateInv initState
  refine ⟨by simp, ?_, ?_, by simp, ?_, rfl⟩
  · simp only [true_iff]
    norm_num [noiseCap, RATE]
  · simp only [Bool.false_eq_true, false_iff, not_le]
    norm_num [noiseCap, RATE]
  · simp only [true_iff]
    norm_num [noiseCap, RATE]

theorem activeStep_fields (fc : List ℝ → List ℝ) (s1 : ProcState) (af : List ℝ) :
    ((activeStep fc s1 af).1).noise_buffer = s1.noise_buffer ∧
    ((activeStep fc s1 af).1).learning_noise = s1.learning_noise ∧
    ((activeStep fc s1 af).1).noise_learned = s1.noise_learned ∧
    ((activeStep fc s1 af).1).noise_profile = s1.noise_profile ∧
    ((activeStep fc s1 af).1).processing_enabled = s1.processing_enabled ∧
    ((activeStep fc s1 af).1).max_db_recorded = s1.max_db_recorded := by
  unfold activeStep
  simp only []
  repeat' split
  all_goals exact ⟨rfl, rfl, rfl, rfl, rfl, rfl⟩

theorem stateInv_step {s : ProcState} {t : ℕ} (fc : List ℝ → List ℝ) (c : List ℤ)
    (h : StateInv s t) : StateInv ((processChunk fc s c).1) (t + c.length) := by
  obtain ⟨hbuf, hlearn, hlearned, hplen, hpnone, hpe⟩ := h
  have hbuflen : (takeLast noiseCap (s.noise_buffer ++ floatChunk c)).length
      = min noiseCap (min t noiseCap + c.length) := by
    rw [takeLast_length, List.length_append, hbuf, floatChunk_length]
  have hfin : ∀ s2 : ProcState, s2.noise_buffer = s.noise_buffer →
      s2.learning_noise = s.learning_noise → s2.noise_learned = s.noise_learned →
      s2.noise_profile = s.noise_profile → s2.processing_enabled = s.processing_enabled →
      noiseCap ≤ t → StateInv s2 (t + c.length) := by
    intro s2 e1 e2 e3 e4 e5 ht2
    refine ⟨?_, ?_, ?_, ?_, ?_, ?_⟩
    · rw [e1, hbuf]
      omega
    · rw [e2, hlearn]
      omega
    · rw [e3, hlearned]
      omega
    · intro p hp
      exact hplen p (e4 ▸ hp)
    · rw [e4, hpnone]
      omega
    · rw [e5, hpe]
  unfold processChunk
  simp only []
  split
  · rename_i hl
    have ht : t < noiseCap := hlearn.mp hl
    unfold learningStep
    simp only []
    split
    · rename_i hcap
      have hc2 : noiseCap ≤ t + c.length := by
        rw [hbuflen] at hcap
        omega
      refine ⟨?_, ?_, ?_, ?_, ?_, hpe⟩
      · show (takeLast noiseCap (s.noise_buffer ++ floatChunk c)).length
            = min (t + c.length) noiseCap
        rw [hbuflen]
        omega
      · exact iff_of_false Bool.false_ne_true (by omega)
      · exact iff_of_true rfl hc2
      · intro p hp
        have hx := Option.some.inj hp
        rw [← hx, List.length_map, fft_length, List.length_map, hannWindowed_length, hbuflen]
        omega
      · exact iff_of_false (Option.some_ne_none _) (by omega)
    · rename_i hcap
      have hc2 : t + c.length < noiseCap := by
        rw [hbuflen] at hcap
        omega
      refine ⟨?_, ?_, ?_, hplen, ?_, hpe⟩
      · show (takeLast noiseCap (s.noise_buffer ++ floatChunk c)).length
            = min (t + c.length) noiseCap
        rw [hbuflen]
        omega
      · exact iff_of_true hl hc2
      · rw [hlearned]
        omega
      · rw [hpnone]
        omega
  · rename_i hl
    have ht2 : noiseCap ≤ t := not_lt.mp (fun hlt => hl (hlearn.mpr hlt))
    split
    · exact hfin _ rfl rfl rfl rfl rfl ht2
    · split
      · obtain ⟨f1, f2, f3, f4, f5, _⟩ := activeStep_fields fc
          { s with current_db := calculate_db_level (floatChunk c),
                   max_db_recorded := max s.max_db_recorded (calculate_db_level (floatChunk c)) }
          (floatChunk c)
        exact hfin _ f1 f2 f3 f4 f5 ht2
      · exact hfin _ rfl rfl rfl rfl rfl ht2

/-! ## State update of `process_audio_chunk` -/

theorem processChunk_fst_max (fc : List ℝ → List ℝ) (s : ProcState) (c : List ℤ) :
    ((processChunk fc s c).1).max_db_recorded
      = max s.max_db_recorded (calculate_db_level (floatChunk c)) := by
  unfold processChunk
  simp only []
  split
  · unfold learningStep
    simp only []
    split
    · rfl
    · rfl
  · split
    · rfl
    · split
      · exact (activeStep_fields fc _ _).2.2.2.2.2
      · rfl

/-! ## Session-level lemmas -/

theorem run_append (fc : List ℝ → List ℝ) (cs : List (List ℤ)) (c : List ℤ) :
    run fc (cs ++ [c]) = (processChunk fc (run fc cs) c).1 := by
  unfold run
  rw [List.foldl_append]
  rfl

theorem run_inv (fc : List ℝ → List ℝ) (cs : List (List ℤ)) :
    StateInv (run fc cs) (totalLen cs) := by
  suffices h : ∀ (ds : List (List ℤ)) (s : ProcState) (t : ℕ), StateInv s t →
      StateInv (ds.foldl (fun s c => (processChunk fc s c).1) s) (t + totalLen ds) by
    simpa using h cs initState 0 stateInv_init
  intro ds
  induction ds with
  | nil =>
    intro s t h
    simpa [totalLen] using h
  | cons c ds ih =>
    intro s t h
    have h2 := ih ((processChunk fc s c).1) (t + c.length) (stateInv_step fc c h)
    simp only [List.foldl_cons]
    have htl : totalLen (c :: ds) = c.length + totalLen ds := by
      simp [totalLen]
    rw [htl, ← Nat.add_assoc]
    exact h2

theorem run_learning_iff (fc : List ℝ → List ℝ) (cs : List (List ℤ)) :
    (run fc cs).learning_noise = false ↔ noiseCap ≤ totalLen cs := by
  obtain ⟨-, hlearn, -, -, -, -⟩ := run_inv fc cs
  rw [← not_lt, ← hlearn]
  cases (run fc cs).learning_noise <;> simp

theorem processChunk_profile_not_learning (fc : List ℝ → List ℝ) (s : ProcState)
    (c : List ℤ) (hl : s.learning_noise = false) :
    ((processChunk fc s c).1).noise_profile = s.noise_profile := by
  unfold processChunk
  simp only []
  split
  · rename_i h
    rw [hl] at h
    exact absurd h Bool.false_ne_true
  · split
    · rfl
    · split
      · exact (activeStep_fields fc _ _).2.2.2.1
      · rfl

/-! ## Behaviour of the Active branch -/

theorem activeStep_mismatch (fc : List ℝ → List ℝ) (s1 : ProcState) (af : List ℝ)
    {p : List ℝ} (hp : s1.noise_profile = some p) (hmm : af.length ≠ p.length) :
    (activeStep fc s1 af).2
      = (low_pass_filter fc af).bind
          (fun y => Except.ok (toInt16 (adaptive_volume_control y).1)) := by
  unfold activeStep
  simp only []
  split
  · rename_i heq
    rw [hp] at heq
    exact Option.noConfusion heq
  · rename_i prof heq
    rw [hp] at heq
    have hpp := Option.some.inj heq
    rw [if_neg (by rw [← hpp]; exact hmm)]
    rcases hlp : low_pass_filter fc af with e | y
    · rfl
    · rfl

theorem activeStep_ok (fc : List ℝ → List ℝ) (s1 : ProcState) (af : List ℝ)
    {p : List ℝ} (hp : s1.noise_profile = some p) (hlen : 15 < af.length) :
    ∃ out, (activeStep fc s1 af).2 = Except.ok out := by
  unfold activeStep
  simp only []
  split
  · rename_i heq
    rw [hp] at heq
    exact Option.noConfusion heq
  · rename_i prof heq
    by_cases hmm2 : af.length = prof.length
    · rw [if_pos hmm2]
      have hl2 : (spectral_subtraction noise_reduction_factor af (some prof)).length
          = af.length := spectral_subtraction_length _ hmm2.symm
      unfold low_pass_filter
      rw [if_neg (by rw [hl2]; omega)]
      exact ⟨_, rfl⟩
    · rw [if_neg hmm2]
      unfold low_pass_filter
      rw [if_neg (by omega)]
      exact ⟨_, rfl⟩

theorem activeStep_short_err (fc : List ℝ → List ℝ) (s1 : ProcState) (af : List ℝ)
    {p : List ℝ} (hp : s1.noise_profile = some p) (hmm : af.length ≠ p.length)
    (hshort : af.length ≤ 15) :
    (activeStep fc s1 af).2 = Except.error padlenMsg := by
  rw [activeStep_mismatch fc s1 af hp hmm]
  unfold low_pass_filter
  rw [if_pos hshort]
  rfl

theorem processChunk_active_eq (fc : List ℝ → List ℝ) (s : ProcState) (c : List ℤ)
    (hl : s.learning_noise = false) (hpe : s.processing_enabled = true)
    (hnl : s.noise_learned = true) (hne : c ≠ []) :
    (processChunk fc s c).2
      = (activeStep fc
          { s with current_db := calculate_db_level (floatChunk c),
                   max_db_recorded := max s.max_db_recorded (calculate_db_level (floatChunk c)) }
          (floatChunk c)).2 := by
  unfold processChunk
  simp only []
  split
  · rename_i h
    rw [hl] at h
    exact absurd h Bool.false_ne_true
  · split
    · rename_i h
      rw [hpe] at h
      exact absurd h (by decide)
    · split
      · rfl
      · rename_i h
        exact absurd ⟨hnl, by rw [floatChunk_length]; exact List.length_pos.mpr hne⟩ h

theorem processChunk_mismatch (fc : List ℝ → List ℝ) (s : ProcState) (c : List ℤ)
    {p : List ℝ} (hl : s.learning_noise = false) (hpe : s.processing_enabled = true)
    (hnl : s.noise_learned = true) (hp : s.noise_profile = some p)
    (hne : c ≠ []) (hmm : c.length ≠ p.length) :
    (processChunk fc s c).2
      = (low_pass_filter fc (floatChunk c)).bind
          (fun y => Except.ok (toInt16 (adaptive_volume_control y).1)) := by
  rw [processChunk_active_eq fc s c hl hpe hnl hne]
  exact activeStep_mismatch fc _ _ hp (by rw [floatChunk_length]; exact hmm)

theorem processChunk_sA_nil : (processChunk id sA []).2 = Except.ok [] := by
  unfold processChunk
  simp only []
  split
  · rename_i h
    exact absurd h Bool.false_ne_true
  · split
    · rename_i h
      exact absurd h (by decide)
    · split
      · rename_i h
        exact absurd h.2 (by simp [floatChunk])
      · simp [toInt16, floatChunk]

theorem lowpass_nil_err :
    (low_pass_filter id (floatChunk [])).bind
        (fun y => Except.ok (toInt16 (adaptive_volume_control y).1))
      = Except.error padlenMsg := by
  unfold low_pass_filter
  rw [if_pos (by simp [floatChunk])]
  rfl

/-! ## Int16 range safety -/

theorem truncToInt_range {r : ℝ} (h1 : -32768 ≤ r) (h2 : r ≤ 32767) :
    -32768 ≤ truncToInt r ∧ truncToInt r ≤ 32767 := by
  unfold truncToInt
  split
  · constructor
    · exact Int.le_floor.mpr (by exact_mod_cast h1)
    · have h3 := (Int.floor_le r).trans h2
      exact_mod_cast h3
  · constructor
    · have h3 := h1.trans (Int.le_ceil r)
      exact_mod_cast h3
    · exact Int.ceil_le.mpr (by exact_mod_cast h2)

theorem toInt16_mem_range {x : List ℝ} {v : ℤ} (hv : v ∈ toInt16 x) :
    -32768 ≤ v ∧ v ≤ 32767 := by
  unfold toInt16 at hv
  rcases List.mem_map.mp hv with ⟨s, -, rfl⟩
  apply truncToInt_range
  · exact le_max_left _ _
  · exact max_le (by norm_num) (min_le_left _ _)

theorem activeStep_out_toInt16 {fc : List ℝ → List ℝ} {s1 : ProcState} {af : List ℝ}
    {out : List ℤ} (h : (activeStep fc s1 af).2 = Except.ok out) :
    ∃ y, out = toInt16 y := by
  unfold activeStep at h
  simp only [] at h
  split at h
  · exact Except.noConfusion h
  · rename_i prof heq
    by_cases hmm2 : af.length = prof.length
    · rw [if_pos hmm2] at h
      rcases hlp : low_pass_filter fc
          (spectral_subtraction noise_reduction_factor af (some prof)) with e | y
      · rw [hlp] at h
        exact Except.noConfusion h
      · rw [hlp] at h
        exact ⟨(adaptive_volume_control y).1, (Except.ok.inj h).symm⟩
    · rw [if_neg hmm2] at h
      rcases hlp : low_pass_filter fc af with e | y
      · rw [hlp] at h
        exact Except.noConfusion h
      · rw [hlp] at h
        exact ⟨(adaptive_volume_control y).1, (Except.ok.inj h).symm⟩

theorem processChunk_ok_range (fc : List ℝ → List ℝ) (s : ProcState) (c : List ℤ)
    (out : List ℤ) (hl : s.learning_noise = false) (hpe : s.processing_enabled = true)
    (hout : (processChunk fc s c).2 = Except.ok out) :
    ∀ v ∈ out, -32768 ≤ v ∧ v ≤ 32767 := by
  unfold processChunk at hout
  simp only [] at hout
  split at hout
  · rename_i h
    rw [hl] at h
    exact absurd h Bool.false_ne_true
  · split at hout
    · rename_i h
      rw [hpe] at h
      exact absurd h (by decide)
    · split at hout
      · obtain ⟨y, rfl⟩ := activeStep_out_toInt16 hout
        intro v hv
        exact toInt16_mem_range hv
      · have h2 := Except.ok.inj hout
        intro v hv
        exact toInt16_mem_range (h2 ▸ hv)

theorem apply_safety_limiting_abs_le {x : List ℝ} (hx : ∀ s ∈ x, |s| ≤ 1) :
    ∀ y ∈ (apply_safety_limiting x).1, |y| ≤ 1 := by
  unfold apply_safety_limiting
  simp only []
  split
  · split
    · rename_i houter
      have hgtr : MAX_DB < 20 * Real.logb 10 (rmsOf x) + 94 :=
        WithBot.coe_lt_coe.mp houter.1
      intro y hy
      rcases List.mem_map.mp hy with ⟨s, hs, rfl⟩
      rw [WithBot.unbot'_coe]
      set r := 20 * Real.logb 10 (rmsOf x) + 94 with hrdef
      have hexp : -(r - MAX_DB) / 20 < 0 := by
        have h1 : 0 < r - MAX_DB := by linarith
        have h20 : (0 : ℝ) < 20 := by norm_num
        exact div_neg_of_neg_of_pos (by linarith) h20
      have hg1 : (10 : ℝ) ^ (-(r - MAX_DB) / 20) < 1 :=
        Real.rpow_lt_one_of_one_lt_of_neg (by norm_num) hexp
      have hg0 : (0 : ℝ) < (10 : ℝ) ^ (-(r - MAX_DB) / 20) :=
        Real.rpow_pos_of_pos (by norm_num) _
      have hs1 := hx s hs
      rw [abs_mul, abs_of_pos hg0]
      nlinarith [abs_nonneg s]
    · intro y hy
      exact hx y hy
  · split
    · rename_i houter
      exact absurd rfl houter.2
    · intro y hy
      exact hx y hy

theorem simpleOut_range {c : List ℤ} (hc : ∀ v ∈ c, -32768 ≤ v ∧ v ≤ 32767) :
    ∀ w ∈ simpleOut c, -32768 ≤ w ∧ w ≤ 32767 := by
  have hx : ∀ s ∈ floatChunk c, |s| ≤ 1 := by
    intro s hs
    rcases List.mem_map.mp hs with ⟨v, hv, rfl⟩
    obtain ⟨h1, h2⟩ := hc v hv
    have hv1 : |(v : ℝ)| ≤ 32768 := by
      rw [abs_le]
      constructor
      · exact_mod_cast (by linarith : (-32768 : ℤ) ≤ v)
      · exact_mod_cast (by linarith : v ≤ 32768)
    rw [abs_div]
    rw [(by norm_num : |(32768 : ℝ)| = 32768)]
    rw [div_le_one (by norm_num)]
    exact hv1
  intro w hw
  unfold simpleOut at hw
  rcases List.mem_map.mp hw with ⟨s, hs, rfl⟩
  have hy := abs_le.mp (apply_safety_limiting_abs_le hx s hs)
  exact truncToInt_range (by nlinarith [hy.1, hy.2]) (by nlinarith [hy.1, hy.2])

/-! ## DFT inversion -/

theorem exp_ratio_ne_one {n : ℕ} (hn : 0 < n) {m j : ℕ} (hm : m < n) (hj : j < n)
    (hne : m ≠ j) :
    Complex.exp ((2 * (Real.pi : ℂ) * ((m : ℂ) - j) / n) * Complex.I) ≠ 1 := by
  intro hone
  rw [Complex.exp_eq_one_iff] at hone
  obtain ⟨z, hz⟩ := hone
  have hn0 : (n : ℂ) ≠ 0 := Nat.cast_ne_zero.mpr hn.ne'
  have hfac : (2 * (Real.pi : ℂ) * Complex.I) * (((m : ℂ) - j) / n)
      = (2 * (Real.pi : ℂ) * Complex.I) * z := by
    calc (2 * (Real.pi : ℂ) * Complex.I) * (((m : ℂ) - j) / n)
        = (2 * (Real.pi : ℂ) * ((m : ℂ) - j) / n) * Complex.I := by ring
      _ = z * (2 * (Real.pi : ℂ) * Complex.I) := hz
      _ = (2 * (Real.pi : ℂ) * Complex.I) * z := by ring
  have hpiI : (2 * (Real.pi : ℂ)) * Complex.I ≠ 0 := by
    apply mul_ne_zero
    · simp [Real.pi_ne_zero, Complex.ofReal_ne_zero]
    · exact Complex.I_ne_zero
  have hz2 : ((m : ℂ) - j) / n = z := mul_left_cancel₀ hpiI hfac
  have hz3 : (m : ℂ) - j = z * n := by
    field_simp at hz2
    linear_combination hz2
  have key : (m : ℤ) - j = z * n := by
    exact_mod_cast hz3
  rcases eq_or_ne z 0 with rfl | hz0
  · simp only [zero_mul] at key
    omega
  · have h1 : 1 ≤ |z| := Int.one_le_abs hz0
    have h2 : |(m : ℤ) - j| = |z| * n := by
      rw [key, abs_mul]
      congr 1
      exact abs_of_nonneg (by positivity)
    have h3 : (n : ℤ) ≤ |z| * n := le_mul_of_one_le_left (by positivity) h1
    have h4 : |(m : ℤ) - j| < n := by
      rw [abs_sub_lt_iff]
      omega
    linarith

theorem exp_geom_sum_eq_zero {n : ℕ} (hn : 0 < n) {m j : ℕ} (hm : m < n) (hj : j < n)
    (hne : m ≠ j) :
    ∑ k in Finset.range n,
      Complex.exp ((2 * (Real.pi : ℂ) * ((m : ℂ) - j) * k / n) * Complex.I) = 0 := by
  have hrw : ∀ k : ℕ,
      Complex.exp ((2 * (Real.pi : ℂ) * ((m : ℂ) - j) * k / n) * Complex.I)
        = Complex.exp ((2 * (Real.pi : ℂ) * ((m : ℂ) - j) / n) * Complex.I) ^ k := by
    intro k
    rw [← Complex.exp_nat_mul]
    congr 1
    ring
  simp_rw [hrw]
  rw [geom_sum_eq (exp_ratio_ne_one hn hm hj hne)]
  have hn0 : (n : ℂ) ≠ 0 := Nat.cast_ne_zero.mpr hn.ne'
  have hzn : Complex.exp ((2 * (Real.pi : ℂ) * ((m : ℂ) - j) / n) * Complex.I) ^ n = 1 := by
    rw [← Complex.exp_nat_mul]
    have harg : (n : ℂ) * ((2 * (Real.pi : ℂ) * ((m : ℂ) - j) / n) * Complex.I)
        = (((m : ℤ) - j : ℤ) : ℂ) * (2 * (Real.pi : ℂ) * Complex.I) := by
      push_cast
      field_simp
      ring
    rw [harg]
    exact Complex.exp_int_mul_two_pi_mul_I _
  rw [hzn]
  simp

theorem exp_geom_sum_diag {n : ℕ} (m : ℕ) :
    ∑ k in Finset.range n,
      Complex.exp ((2 * (Real.pi : ℂ) * ((m : ℂ) - m) * k / n) * Complex.I) = n := by
  have hrw : ∀ k : ℕ,
      Complex.exp ((2 * (Real.pi : ℂ) * ((m : ℂ) - m) * k / n) * Complex.I) = 1 := by
    intro k
    simp [sub_self]
  simp [hrw]

theorem getD_lt {α : Type _} {l : List α} {k : ℕ} (hk : k < l.length) (d : α) :
    l.getD k d = l[k] := by
  rw [List.getD_eq_getElem?_getD, List.getElem?_eq_getElem hk]
  rfl

theorem fft_getD {x : List ℂ} {k : ℕ} (hk : k < x.length) :
    (fft x).getD k 0 = ∑ j in Finset.range x.length,
      x.getD j 0 * Complex.exp (-(2 * (Real.pi : ℂ) * j * k / x.length) * Complex.I) := by
  have hk2 : k < (fft x).length := by
    rw [fft_length]
    exact hk
  rw [getD_lt hk2]
  unfold fft
  simp

theorem ifft_fft (x : List ℂ) : ifft (fft x) = x := by
  rcases Nat.eq_zero_or_pos x.length with h0 | hn
  · have hx : x = [] := List.length_eq_zero.mp h0
    subst hx
    rfl
  · apply List.ext_getElem
    · rw [ifft_length, fft_length]
    · intro m hm1 hm2
      have hm : m < x.length := hm2
      have hn0 : (x.length : ℂ) ≠ 0 := Nat.cast_ne_zero.mpr hn.ne'
      have hlhs : (ifft (fft x))[m] =
          (∑ k in Finset.range x.length, (fft x).getD k 0 *
            Complex.exp ((2 * (Real.pi : ℂ) * m * k / x.length) * Complex.I)) / x.length := by
        unfold ifft
        simp [fft_length]
      rw [hlhs]
      have hexp : ∀ k ∈ Finset.range x.length, (fft x).getD k 0 *
            Complex.exp ((2 * (Real.pi : ℂ) * m * k / x.length) * Complex.I)
          = ∑ j in Finset.range x.length, x.getD j 0 *
              Complex.exp ((2 * (Real.pi : ℂ) * ((m : ℂ) - j) * k / x.length) * Complex.I) := by
        intro k hk
        rw [fft_getD (Finset.mem_range.mp hk), Finset.sum_mul]
        apply Finset.sum_congr rfl
        intro j _
        rw [mul_assoc, ← Complex.exp_add]
        congr 2
        ring
      rw [Finset.sum_congr rfl hexp, Finset.sum_comm]
      have hswap : ∀ j ∈ Finset.range x.length,
          (∑ k in Finset.range x.length, x.getD j 0 *
            Complex.exp ((2 * (Real.pi : ℂ) * ((m : ℂ) - j) * k / x.length) * Complex.I))
          = x.getD j 0 * ∑ k in Finset.range x.length,
              Complex.exp ((2 * (Real.pi : ℂ) * ((m : ℂ) - j) * k / x.length) * Complex.I) := by
        intro j _
        rw [Finset.mul_sum]
      rw [Finset.sum_congr rfl hswap]
      rw [Finset.sum_eq_single m]
      · rw [exp_geom_sum_diag, mul_div_assoc, div_self hn0, mul_one]
        exact getD_lt hm 0
      · intro j hjmem hjne
        rw [exp_geom_sum_eq_zero hn hm (Finset.mem_range.mp hjmem) (Ne.symm hjne), mul_zero]
      · intro hnotmem
        exact absurd (Finset.mem_range.mpr hm) hnotmem

/-! ## Spectral subtraction with a zero reduction factor -/

theorem zipWith_sub_zero_mul : ∀ (A B : List ℝ), A.length ≤ B.length →
    List.zipWith (fun m p => m - (0 : ℝ) * p) A B = A := by
  intro A
  induction A with
  | nil =>
    intro B _
    rfl
  | cons a A ih =>
    intro B h
    cases B with
    | nil => simp at h
    | cons b B =>
      simp only [List.zipWith_cons_cons]
      rw [ih B (by simpa using h)]
      norm_num

theorem zipWith_max_tenth : ∀ A : List ℝ, (∀ a ∈ A, 0 ≤ a) →
    List.zipWith max A (A.map fun m => 0.1 * m) = A := by
  intro A
  induction A with
  | nil =>
    intro _
    rfl
  | cons a A ih =>
    intro h
    simp only [List.map_cons, List.zipWith_cons_cons]
    rw [ih fun x hx => h x (List.mem_cons_of_mem a hx)]
    have ha : 0 ≤ a := h a (List.mem_cons_self a A)
    rw [max_eq_left (by linarith)]

theorem zipWith_abs_arg : ∀ F : List ℂ,
    List.zipWith (fun m p : ℝ => Complex.ofReal m * Complex.exp (Complex.ofReal p * Complex.I))
      (F.map Complex.abs) (F.map Complex.arg) = F := by
  intro F
  induction F with
  | nil => rfl
  | cons z F ih =>
    simp only [List.map_cons, List.zipWith_cons_cons]
    rw [ih]
    congr 1
    exact Complex.abs_mul_exp_arg_mul_I z

theorem map_re_ofReal (w : List ℝ) : (w.map Complex.ofReal).map Complex.re = w := by
  simp [List.map_map, Function.comp_def]

theorem spectral_subtraction_alpha_zero {x noise : List ℝ} (h64 : 64 ≤ x.length)
    (hlen : noise.length = x.length) :
    spectral_subtraction 0 x (some noise) = hannWindowed x := by
  unfold spectral_subtraction
  simp only []
  rw [if_neg (by omega)]
  set F := fft ((hannWindowed x).map Complex.ofReal) with hF
  have habs_nonneg : ∀ a ∈ F.map Complex.abs, 0 ≤ a := by
    intro a ha
    rcases List.mem_map.mp ha with ⟨z, -, rfl⟩
    exact Complex.abs.nonneg z
  have hlen2 : (F.map Complex.abs).length ≤ noise.length := by
    rw [List.length_map, hF, fft_length, List.length_map, hannWindowed_length, hlen]
  rw [zipWith_sub_zero_mul _ _ hlen2, zipWith_max_tenth _ habs_nonneg, zipWith_abs_arg,
    hF, ifft_fft, map_re_ofReal]

/-! ## Claim theorems -/

/-- C1: for every chunk whose measured dB exceeds the 70 dB ceiling
(`MAX_DB`), the chunk returned by `adaptive_volume_control` has measured dB at
most the ceiling itself — the gain reduction composed with the soft knee
`tanh(0.8·x)·0.8` never overshoots, so the bound holds even with ε = 0. -/
theorem C1_limiter_enforces_ceiling (x : List ℝ)
    (h : (MAX_DB : WithBot ℝ) < calculate_db_level x) :
    calculate_db_level ((adaptive_volume_control x).1) ≤ (MAX_DB : WithBot ℝ) :=
  limiter_db_le h

/-- Witness for C1 at the concrete chunk `[1]`, whose measured level is 94 dB. -/
theorem C1_limiter_enforces_ceiling_witness :
    (MAX_DB : WithBot ℝ) < calculate_db_level [(1 : ℝ)] ∧
      calculate_db_level ((adaptive_volume_control [(1 : ℝ)]).1) ≤ (MAX_DB : WithBot ℝ) :=
  ⟨dbLevel_one_gt, C1_limiter_enforces_ceiling [(1 : ℝ)] dbLevel_one_gt⟩

/-- C6: a chunk whose measured dB is at or below the ceiling passes through
`adaptive_volume_control` exactly unchanged (together with its measured
level), and re-applying the limiter to the already-compliant output is a
no-op. -/
theorem C6_limiter_identity_on_compliant (x : List ℝ)
    (h : calculate_db_level x ≤ (MAX_DB : WithBot ℝ)) :
    adaptive_volume_control x = (x, calculate_db_level x) ∧
      adaptive_volume_control ((adaptive_volume_control x).1) = adaptive_volume_control x := by
  have h1 := adaptive_pass_through h
  refine ⟨h1, ?_⟩
  rw [h1]
  simpa using h1

/-- Witness for C6 at the silent chunk `[0]` (level `-inf ≤ 70`). -/
theorem C6_limiter_identity_on_compliant_witness :
    calculate_db_level [(0 : ℝ)] ≤ (MAX_DB : WithBot ℝ) ∧
      adaptive_volume_control [(0 : ℝ)] = ([(0 : ℝ)], calculate_db_level [(0 : ℝ)]) := by
  have h : calculate_db_level [(0 : ℝ)] ≤ (MAX_DB : WithBot ℝ) := by
    rw [calculate_db_level_single_zero]
    exact bot_le
  exact ⟨h, (C6_limiter_identity_on_compliant [(0 : ℝ)] h).1⟩

/-- C4 (code bug): `adaptive_volume_control` always returns the dB level
measured on its *input* chunk as the second component — not the
post-processing level the spec promises.  At the failing input `[1]` the
input level is 94 dB, the function returns 94, yet the level of the chunk it
outputs is at most 70 dB. -/
theorem C4_limiter_returns_pre_limit_db :
    (∀ x : List ℝ, (adaptive_volume_control x).2 = calculate_db_level x) ∧
      (adaptive_volume_control [(1 : ℝ)]).2 = ((94 : ℝ) : WithBot ℝ) ∧
      calculate_db_level ((adaptive_volume_control [(1 : ℝ)]).1) ≤ ((70 : ℝ) : WithBot ℝ) := by
  refine ⟨adaptive_snd, ?_, ?_⟩
  · rw [adaptive_snd, calculate_db_level_single_one]
  · have h := limiter_db_le dbLevel_one_gt
    rwa [MAX_DB] at h

/-- C10: after every `process_audio_chunk` call — in every state, Learning,
Active or Bypassed, and also when the filter stage raises — the recorded
maximum equals `max` of its previous value and the *pre-processing* input
level of the chunk (measured on the float-converted chunk before any noise
reduction or limiting); consequently it is monotonically non-decreasing over
a session. -/
theorem C10_max_db_recorded_monotone (fc : List ℝ → List ℝ) (s : ProcState) (c : List ℤ) :
    ((processChunk fc s c).1).max_db_recorded
        = max s.max_db_recorded (calculate_db_level (floatChunk c)) ∧
      s.max_db_recorded ≤ ((processChunk fc s c).1).max_db_recorded := by
  refine ⟨processChunk_fst_max fc s c, ?_⟩
  rw [processChunk_fst_max fc s c]
  exact le_max_left _ _

/-- C2: the processor starts in the Learning state; after any stream of
chunks, learning is over exactly when the accumulated sample count has
reached the learning window `noiseCap = int(44100 * 3.0) = 132300` (so the
Learning→Active transition happens exactly once, at the first chunk crossing
that boundary); the `noise_profile` exists precisely from that boundary on
and always has the learning-window length `noiseCap`; and once learning is
over, processing further chunks never changes (recomputes) the profile. -/
theorem C2_learning_to_active_transition (fc : List ℝ → List ℝ) :
    initState.learning_noise = true ∧
    (∀ cs : List (List ℤ), ((run fc cs).learning_noise = false ↔ noiseCap ≤ totalLen cs)) ∧
    (∀ cs : List (List ℤ), (run fc cs).noise_profile.map List.length
        = if noiseCap ≤ totalLen cs then some noiseCap else none) ∧
    (∀ (cs : List (List ℤ)) (c : List ℤ), noiseCap ≤ totalLen cs →
        (run fc (cs ++ [c])).noise_profile = (run fc cs).noise_profile) := by
  refine ⟨rfl, run_learning_iff fc, ?_, ?_⟩
  · intro cs
    obtain ⟨-, -, -, hplen, hpnone, -⟩ := run_inv fc cs
    by_cases hle : noiseCap ≤ totalLen cs
    · rw [if_pos hle]
      rcases ho : (run fc cs).noise_profile with _ | p
      · exact absurd (hpnone.mp ho) (not_lt.mpr hle)
      · simp [hplen p ho]
    · rw [if_neg hle]
      rw [hpnone.mpr (not_le.mp hle)]
      rfl
  · intro cs c hle
    rw [run_append]
    exact processChunk_profile_not_learning fc _ c ((run_learning_iff fc cs).mpr hle)

/-- Witness for C2 at a concrete stream: one learning-window-sized chunk,
followed by one more chunk for the stability conjunct. -/
theorem C2_learning_to_active_transition_witness :
    noiseCap ≤ totalLen [List.replicate noiseCap (0 : ℤ)] ∧
      (run id ([List.replicate noiseCap (0 : ℤ)] ++ [[]])).noise_profile
        = (run id [List.replicate noiseCap (0 : ℤ)]).noise_profile := by
  have h : noiseCap ≤ totalLen [List.replicate noiseCap (0 : ℤ)] := by
    simp [totalLen]
  exact ⟨h, (C2_learning_to_active_transition id).2.2.2 _ [] h⟩

/-- C3 (amended): for every *nonempty* chunk whose length differs from the
learned profile's length, the subtraction stage is skipped (the chunk reaches
the filter unchanged) and the low-pass filter and the limiter still execute
on it: the returned chunk is exactly filter-then-limiter (with the filter's
`ValueError` propagating for lengths ≤ 15).  The original claim's "every
chunk" fails at the empty chunk, which bypasses filter and limiter — see the
counterexample. -/
theorem C3_mismatched_chunk_filter_limiter (fc : List ℝ → List ℝ) (s : ProcState)
    (c : List ℤ) {p : List ℝ} (hl : s.learning_noise = false)
    (hpe : s.processing_enabled = true) (hnl : s.noise_learned = true)
    (hp : s.noise_profile = some p) (hne : c ≠ []) (hmm : c.length ≠ p.length) :
    (processChunk fc s c).2
      = (low_pass_filter fc (floatChunk c)).bind
          (fun y => Except.ok (toInt16 (adaptive_volume_control y).1)) :=
  processChunk_mismatch fc s c hl hpe hnl hp hne hmm

/-- C3 counterexample: in the Active state `sA` the empty chunk has length
`0 ≠ 132300`, yet the processing result is `ok []` while the
filter-then-limiter pipeline the claim promises would raise in the filter:
the Filter and Limiter do *not* execute on that chunk. -/
theorem C3_counterexample :
    (processChunk id sA []).2 = Except.ok [] ∧
      (low_pass_filter id (floatChunk [])).bind
          (fun y => Except.ok (toInt16 (adaptive_volume_control y).1))
        = Except.error padlenMsg ∧
      (processChunk id sA []).2
        ≠ (low_pass_filter id (floatChunk [])).bind
            (fun y => Except.ok (toInt16 (adaptive_volume_control y).1)) := by
  refine ⟨processChunk_sA_nil, lowpass_nil_err, ?_⟩
  rw [processChunk_sA_nil, lowpass_nil_err]
  simp

/-- Witness for C3's amended theorem at a concrete Active state and the
chunk `[0]` of length `1 ≠ 132300`. -/
theorem C3_mismatched_chunk_filter_limiter_witness :
    (processChunk id sA [(0 : ℤ)]).2
      = (low_pass_filter id (floatChunk [(0 : ℤ)])).bind
          (fun y => Except.ok (toInt16 (adaptive_volume_control y).1)) := by
  refine C3_mismatched_chunk_filter_limiter id sA [(0 : ℤ)] rfl rfl rfl rfl (by simp) ?_
  simp only [List.length_singleton, List.length_replicate]
  norm_num [noiseCap, RATE]

/-- C7 (amended): `process_audio_chunk` returns a chunk without raising
whenever the chunk is empty, or longer than 15 samples, or the state is
Learning or Bypassed (and an Active state carries a profile, as every
reachable Active state does).  The original "every chunk in every state"
fails for nonempty chunks of length ≤ 15 in the Active state, where scipy's
`filtfilt` raises `ValueError` — see the counterexample. -/
theorem C7_returns_without_raising (fc : List ℝ → List ℝ) (s : ProcState) (c : List ℤ)
    (hprof : s.noise_learned = true → ∃ p, s.noise_profile = some p)
    (hc : c = [] ∨ 15 < c.length ∨ s.learning_noise = true ∨ s.processing_enabled = false) :
    ∃ out, (processChunk fc s c).2 = Except.ok out := by
  unfold processChunk
  simp only []
  split
  · unfold learningStep
    simp only []
    split
    · exact ⟨c, rfl⟩
    · exact ⟨c, rfl⟩
  · rename_i hlnot
    split
    · exact ⟨c, rfl⟩
    · rename_i hpenot
      split
      · rename_i hguard
        obtain ⟨p, hp⟩ := hprof hguard.1
        have hlen15 : 15 < (floatChunk c).length := by
          rw [floatChunk_length]
          rcases hc with h | h | h | h
          · rw [h] at hguard
            exact absurd hguard.2 (by simp [floatChunk])
          · exact h
          · exact absurd h hlnot
          · exact absurd h hpenot
        exact activeStep_ok fc _ _ hp hlen15
      · exact ⟨_, rfl⟩

/-- Witness for C7's amended theorem: the empty chunk in the initial
(Learning) state is returned unchanged. -/
theorem C7_returns_without_raising_witness :
    ∃ out, (processChunk id initState []).2 = Except.ok out :=
  C7_returns_without_raising id initState []
    (fun h => absurd h (by simp [initState])) (Or.inl rfl)

/-- C7 counterexample: the 1-sample chunk `[0]` in the Active state `sA`
makes `process_audio_chunk` raise — scipy's `filtfilt` rejects inputs of
length ≤ padlen = 15 — contradicting "returns a chunk without raising an
exception" for every chunk length in every state. -/
theorem C7_counterexample :
    (processChunk id sA [(0 : ℤ)]).2 = Except.error padlenMsg := by
  rw [processChunk_active_eq id sA [(0 : ℤ)] rfl rfl rfl (by simp)]
  refine activeStep_short_err id _ _ rfl ?_ (by simp [floatChunk])
  simp only [floatChunk_length, List.length_singleton, List.length_replicate]
  norm_num [noiseCap, RATE]

/-- C9 (implicit): under the default configuration the learned profile always
has length `noiseCap = int(44100·3.0) = 132300`, which never equals the
1024-sample chunk length, so no reachable profile length equals `CHUNK`; and
in every reachable Active state, processing a 1024-sample chunk is exactly
low-pass filter followed by the limiter — spectral subtraction is applied to
no chunk. -/
theorem C9_subtraction_never_applied (fc : List ℝ → List ℝ) (cs : List (List ℤ))
    (c : List ℤ) (hlen : c.length = CHUNK) :
    noiseCap ≠ CHUNK ∧
    (run fc cs).noise_profile.map List.length ≠ some CHUNK ∧
    ((run fc cs).learning_noise = false →
      (processChunk fc (run fc cs) c).2
        = (low_pass_filter fc (floatChunk c)).bind
            (fun y => Except.ok (toInt16 (adaptive_volume_control y).1))) := by
  have hne : noiseCap ≠ CHUNK := by
    norm_num [noiseCap, RATE, CHUNK]
  obtain ⟨-, -, hlearned, hplen, hpnone, hpe⟩ := run_inv fc cs
  refine ⟨hne, ?_, ?_⟩
  · rcases ho : (run fc cs).noise_profile with _ | p
    · simp
    · have := hplen p ho
      simp only [Option.map_some', this]
      exact fun hcon => hne (Option.some.inj hcon)
  · intro hl
    have hcap : noiseCap ≤ totalLen cs := (run_learning_iff fc cs).mp hl
    rcases ho : (run fc cs).noise_profile with _ | p
    · exact absurd (hpnone.mp ho) (not_lt.mpr hcap)
    · refine processChunk_mismatch fc _ c hl hpe (hlearned.mpr hcap) ho ?_ ?_
      · rw [← List.length_pos, hlen]
        norm_num [CHUNK]
      · rw [hlen, hplen p ho]
        exact fun hcon => hne hcon.symm

/-- Witness for C9 after one learning-window-sized chunk, processing a
1024-sample chunk. -/
theorem C9_subtraction_never_applied_witness :
    (run id [List.replicate noiseCap (0 : ℤ)]).learning_noise = false ∧
      (processChunk id (run id [List.replicate noiseCap (0 : ℤ)])
          (List.replicate CHUNK 0)).2
        = (low_pass_filter id (floatChunk (List.replicate CHUNK 0))).bind
            (fun y => Except.ok (toInt16 (adaptive_volume_control y).1)) := by
  have h2 : (run id [List.replicate noiseCap (0 : ℤ)]).learning_noise = false :=
    (run_learning_iff id _).mpr (by simp [totalLen])
  exact ⟨h2,
    (C9_subtraction_never_applied id [List.replicate noiseCap (0 : ℤ)]
      (List.replicate CHUNK 0) (by simp)).2.2 h2⟩

/-- C8: in `safe_audio_system.py`, every chunk returned by the post-learning
conversion (in particular every chunk processed after limiting) has all
samples in `[-32768, 32767]` — the explicit `np.clip` before the int16 cast
makes overflow or wrap-around impossible; and in `simple_pc_to_headphone.py`,
given int16-domain input the limited output scaled by 32767 also stays inside
`[-32768, 32767]` (there the safety comes from unit-range input and a
limiting gain below one rather than a clamp). -/
theorem C8_no_int16_overflow :
    (∀ (fc : List ℝ → List ℝ) (s : ProcState) (c : List ℤ) (out : List ℤ),
        s.learning_noise = false → s.processing_enabled = true →
        (processChunk fc s c).2 = Except.ok out →
        ∀ v ∈ out, -32768 ≤ v ∧ v ≤ 32767) ∧
    (∀ c : List ℤ, (∀ v ∈ c, -32768 ≤ v ∧ v ≤ 32767) →
        ∀ w ∈ simpleOut c, -32768 ≤ w ∧ w ≤ 32767) :=
  ⟨processChunk_ok_range, fun _ hc => simpleOut_range hc⟩

/-- Witness for C8 at concrete inputs: the empty chunk in the Active state
`sA`, and the chunk `[0]` through the simple loop. -/
theorem C8_no_int16_overflow_witness :
    (∀ v ∈ ([] : List ℤ), -32768 ≤ v ∧ v ≤ 32767) ∧
      (∀ w ∈ simpleOut [(0 : ℤ)], -32768 ≤ w ∧ w ≤ 32767) :=
  ⟨C8_no_int16_overflow.1 id sA [] [] rfl rfl processChunk_sA_nil,
   C8_no_int16_overflow.2 [(0 : ℤ)] (by decide)⟩

theorem hannWindowed_ones_head :
    (hannWindowed (List.replicate 64 (1 : ℝ))).getD 0 0 = 0 := by
  unfold hannWindowed hanning
  rw [List.length_replicate, if_neg (by norm_num)]
  rw [List.getD_eq_getElem?_getD, List.getElem?_zipWith]
  simp [List.getElem?_replicate, List.getElem?_range]

/-- C5 (amended): invoked with noise-reduction factor α = 0 (and a profile of
matching length), the Spectral Subtractor returns the *Hann-windowed* input
exactly — in exact arithmetic the FFT/IFFT round trip is lossless, but the
window applied before the FFT is never undone, so the output is
`hanning(len) ⊙ chunk`, not the chunk itself.  The original round-trip claim
fails at the window's zero endpoints — see the counterexample. -/
theorem C5_alpha_zero_returns_windowed_input (x noise : List ℝ) (h64 : 64 ≤ x.length)
    (hlen : noise.length = x.length) :
    spectral_subtraction 0 x (some noise) = hannWindowed x :=
  spectral_subtraction_alpha_zero h64 hlen

/-- Witness for C5's amended theorem on a concrete 64-sample chunk. -/
theorem C5_alpha_zero_returns_windowed_input_witness :
    spectral_subtraction 0 (List.replicate 64 (1 : ℝ)) (some (List.replicate 64 0))
      = hannWindowed (List.replicate 64 (1 : ℝ)) :=
  C5_alpha_zero_returns_windowed_input (List.replicate 64 (1 : ℝ))
    (List.replicate 64 0) (by simp) (by simp)

/-- C5 counterexample: on the all-ones chunk of length 64 (with α = 0 and a
matching-length profile) the subtractor's first output sample is `0`, while
the input's first sample is `1`: the deviation is `1`, far beyond any `1e-6`
relative error, so the α = 0 round trip does *not* return the input
unchanged. -/
theorem C5_counterexample :
    (spectral_subtraction 0 (List.replicate 64 (1 : ℝ))
        (some (List.replicate 64 0))).getD 0 0 = 0 ∧
      ¬ |(spectral_subtraction 0 (List.replicate 64 (1 : ℝ))
            (some (List.replicate 64 0))).getD 0 0
          - (List.replicate 64 (1 : ℝ)).getD 0 0| < 1e-6 := by
  have h0 : (spectral_subtraction 0 (List.replicate 64 (1 : ℝ))
      (some (List.replicate 64 0))).getD 0 0 = 0 := by
    rw [spectral_subtraction_alpha_zero (by simp) (by simp)]
    exact hannWindowed_ones_head
  refine ⟨h0, ?_⟩
  rw [h0]
  norm_num

end SafeAudio

end
